import Mathlib

/-!
Shallow embedding of the meilisearch text-analysis front end
(`src/token.rs`, `src/tokenizer.rs`, `src/processors/mod.rs`,
`src/analyzer.rs`) and proofs of the specified properties.

Texts are modelled as `List Char`; byte offsets are UTF-8 byte offsets
computed with `String.utf8Len` / `Char.utf8Size`. Fallible operations
(string slicing, `usize` subtraction) return `Option`.
-/

/-- Token classification, embedded from `src/token.rs` lines 3-12.
In the source, the `Separator` constructor carries no payload. -/
inductive TokenKind where
  | Word
  | StopWord
  | Separator
deriving DecidableEq, Repr

/-- A token, embedded from `src/token.rs` lines 16-22: a kind, the
(possibly rewritten) word text, and byte offsets into the text the
segmenter operated on. -/
structure Token where
  kind : TokenKind
  word : List Char
  byte_start : Nat
  byte_end : Nat
deriving DecidableEq, Repr

/-- `Token::text`, from `src/token.rs` line 25. -/
def Token.text (t : Token) : List Char := t.word

/-- `Token::byte_len`, from `src/token.rs` lines 29-31. In Rust this is
`usize` subtraction, which panics on underflow; the panic branch is
modelled as `none`. -/
def Token.byte_len (t : Token) : Option Nat :=
  if t.byte_start ≤ t.byte_end then some (t.byte_end - t.byte_start) else none

/-- `Token::is_word`, from `src/token.rs` lines 36-38. -/
def Token.is_word (t : Token) : Bool := t.kind == TokenKind.Word

/-- `Token::is_separator`, from `src/token.rs` lines 39-41: it returns a
`bool`, and `TokenKind::Separator` has no `Hard`/`Soft` payload. -/
def Token.is_separator (t : Token) : Bool := t.kind == TokenKind.Separator

/-- `Token::is_stopword`, from `src/token.rs` lines 42-44. -/
def Token.is_stopword (t : Token) : Bool := t.kind == TokenKind.StopWord

/-- `ProcessedText`, embedded from `src/processors/mod.rs` lines 12-15. -/
structure ProcessedText where
  processed : List Char
  original : List Char
deriving Repr

/-- Detected language, embedded from `src/analyzer.rs` lines 50-54. -/
inductive Lang where
  | English
  | Other
deriving DecidableEq, Repr

/-- Detected script, embedded from the `make_script!` expansion in
`src/analyzer.rs` lines 56-100. -/
inductive Script where
  | Arabic
  | Bengali
  | Cyrillic
  | Devanagari
  | Ethiopic
  | Georgian
  | Greek
  | Gujarati
  | Gurmukhi
  | Hangul
  | Hebrew
  | Hiragana
  | Kannada
  | Katakana
  | Khmer
  | Latin
  | Malayalam
  | Mandarin
  | Myanmar
  | Oriya
  | Sinhala
  | Tamil
  | Telugu
  | Thai
  | Other
deriving DecidableEq, Repr

/-- A pipeline stage triple, embedded from `src/analyzer.rs` lines 17-21.
The boxed trait objects `dyn PreProcessor`, `dyn Tokenizer` and
`dyn Normalizer` are embedded as functions: a pre-processor maps the raw
input to a `ProcessedText`, a tokenizer maps a `ProcessedText` to its
(finite, per the stage contract) token sequence, and a normalizer maps a
token to a token. -/
structure Pipeline where
  pre_processor : List Char → ProcessedText
  tokenizer : ProcessedText → List Token
  normalizer : Token → Token

/-- `Pipeline::set_pre_processor`, from `src/analyzer.rs` lines 34-37. -/
def Pipeline.set_pre_processor (p : Pipeline) (f : List Char → ProcessedText) : Pipeline :=
  { p with pre_processor := f }

/-- `Pipeline::set_tokenizer`, from `src/analyzer.rs` lines 39-42. -/
def Pipeline.set_tokenizer (p : Pipeline) (f : ProcessedText → List Token) : Pipeline :=
  { p with tokenizer := f }

/-- `Pipeline::set_normalizer`, from `src/analyzer.rs` lines 44-47. -/
def Pipeline.set_normalizer (p : Pipeline) (f : Token → Token) : Pipeline :=
  { p with normalizer := f }

/-- `IdentityPreProcessor::process` (declared in `src/processors/mod.rs`;
its body, `src/processors/identity.rs`, is the identity on the text, as
in the `IdentityPreProcessor` impl in `src/tokenizer.rs` lines 20-24):
the processed text is the untouched input and `original` borrows it. -/
def identityPreProcessor : List Char → ProcessedText :=
  fun s => { processed := s, original := s }

/-- `IdentityNormalizer::normalize`, from `src/tokenizer.rs` lines 32-36:
returns its input token unchanged. -/
def identityNormalizer : Token → Token := fun t => t

/-- Word characters for the generic segmenter model. -/
def isWordChar (c : Char) : Bool := c.isAlphanum

/-- Maximal runs of characters agreeing on `isWordChar`, for the generic
segmenter model. -/
def groupRuns : List Char → List (List Char)
  | [] => []
  | c :: cs =>
    match groupRuns cs with
    | [] => [[c]]
    | [] :: rest => [c] :: rest
    | (d :: ds) :: rest =>
      if isWordChar c == isWordChar d then (c :: d :: ds) :: rest
      else [c] :: (d :: ds) :: rest

/-- Turns a list of runs into tokens with consecutive byte offsets,
starting at the given byte position. -/
def runsToTokens : Nat → List (List Char) → List Token
  | _, [] => []
  | pos, r :: rs =>
    { kind := if r.any isWordChar then TokenKind.Word else TokenKind.Separator,
      word := r, byte_start := pos, byte_end := pos + String.utf8Len r }
      :: runsToTokens (pos + String.utf8Len r) rs

/-- Modelled from the spec: the generic Unicode word segmenter
(`UnicodeSegmenter`, declared in `src/analyzer.rs` / `src/tokenizer.rs`
but implemented in the missing `internal_tokenizer` module over the
external `unicode-segmentation` crate). Per the spec it splits the
processed text into word and separator runs, emitting `Word`/`Separator`
tokens with accurate byte offsets into the processed text. -/
def unicodeSegmenter : ProcessedText → List Token :=
  fun pt => runsToTokens 0 (groupRuns pt.processed)

/-- The built-in default pipeline, from `Pipeline::default` in
`src/analyzer.rs` lines 23-31 (also `DEFAULT_ANALYZER` in
`src/tokenizer.rs`): identity pre-processor, generic Unicode segmenter,
identity normalizer. -/
def defaultPipeline : Pipeline :=
  { pre_processor := identityPreProcessor,
    tokenizer := unicodeSegmenter,
    normalizer := identityNormalizer }

/-- The registry, embedded from `AnalyzerConfig` in `src/analyzer.rs`
lines 102-107: a map from `(Script, Lang)` (unique keys) to
`Pipeline`, plus a stop-word set. The `HashMap` is embedded as an
association list and the `fst::Set` of stop words as a list of words. -/
structure AnalyzerConfig where
  pipeline_map : List ((Script × Lang) × Pipeline)
  stop_words : List (List Char)

/-- `HashMap::get` on the embedded association list. -/
def mapGet (m : List ((Script × Lang) × Pipeline)) (k : Script × Lang) :
    Option Pipeline :=
  (m.find? (fun e => e.fst == k)).map (fun e => e.snd)

/-- Modelled from the spec: the external script classifier
(`whatlang::detect_script`, consumed by `Analyzer::detect_script` in
`src/analyzer.rs` lines 251-255): a pure, total classification over
Unicode code-point ranges. Characters outside every known range
classify as none. -/
def charScript (c : Char) : Option Script :=
  if (65 ≤ c.toNat ∧ c.toNat ≤ 90) ∨ (97 ≤ c.toNat ∧ c.toNat ≤ 122) then some Script.Latin
  else if 0x370 ≤ c.toNat ∧ c.toNat ≤ 0x3FF then some Script.Greek
  else if 0x400 ≤ c.toNat ∧ c.toNat ≤ 0x4FF then some Script.Cyrillic
  else if 0x590 ≤ c.toNat ∧ c.toNat ≤ 0x5FF then some Script.Hebrew
  else if 0x600 ≤ c.toNat ∧ c.toNat ≤ 0x6FF then some Script.Arabic
  else if 0xE00 ≤ c.toNat ∧ c.toNat ≤ 0xE7F then some Script.Thai
  else if 0x3040 ≤ c.toNat ∧ c.toNat ≤ 0x309F then some Script.Hiragana
  else if 0x30A0 ≤ c.toNat ∧ c.toNat ≤ 0x30FF then some Script.Katakana
  else if 0x4E00 ≤ c.toNat ∧ c.toNat ≤ 0x9FFF then some Script.Mandarin
  else if 0xAC00 ≤ c.toNat ∧ c.toNat ≤ 0xD7AF then some Script.Hangul
  else none

/-- `Analyzer::detect_script`, from `src/analyzer.rs` lines 251-255, over
the spec-modelled external classifier: if no script is detected the
result is `Script::Other`. On the empty text nothing classifies. -/
def detect_script (text : List Char) : Script :=
  ((text.filterMap charScript).head?).getD Script.Other

/-- `Analyzer::detect_lang`, from `src/analyzer.rs` lines 257-260: a
dummy that always returns `Lang::Other`. -/
def detect_lang (_text : List Char) : Lang := Lang.Other

/-- Modelled from the spec: `TokenClassifier::classify` (the
`token_classifier` module is missing from the sources; `src/analyzer.rs`
line 179 is its caller). For a `Word` token whose normalized text is in
the stop-word set the kind is rewritten to `StopWord`, leaving word and
offsets untouched; every other token passes through unmodified. -/
def classify (stop_words : List (List Char)) (t : Token) : Token :=
  match t.kind with
  | TokenKind.Word =>
    if t.word ∈ stop_words then { t with kind := TokenKind.StopWord } else t
  | _ => t

/-- `AnalyzedText`, embedded from `src/analyzer.rs` lines 159-166: the
processed text, the resolved pipeline, and the classifier (embedded as
the stop-word set it is built from). -/
structure AnalyzedText where
  processed : ProcessedText
  pipeline : Pipeline
  stop_words : List (List Char)

/-- `AnalyzedText::tokens`, from `src/analyzer.rs` lines 173-183: the
segmenter runs on the processed text, then each token is normalized,
then classified. -/
def AnalyzedText.tokens (a : AnalyzedText) : List Token :=
  ((a.pipeline.tokenizer a.processed).map a.pipeline.normalizer).map
    (classify a.stop_words)

/-- Byte-slicing `&text[s..e]` of a `List Char` text: take the chars in
the first `n` bytes; `none` models the Rust panic branch (out of range
or not a char boundary). -/
def takeB : List Char → Nat → Option (List Char)
  | _, 0 => some []
  | [], _ + 1 => none
  | c :: cs, n + 1 =>
    if c.utf8Size ≤ n + 1 then (takeB cs (n + 1 - c.utf8Size)).map (fun t => c :: t)
    else none

/-- Drop the chars in the first `n` bytes; `none` models the Rust panic
branch (out of range or not a char boundary). -/
def dropB : List Char → Nat → Option (List Char)
  | l, 0 => some l
  | [], _ + 1 => none
  | c :: cs, n + 1 =>
    if c.utf8Size ≤ n + 1 then dropB cs (n + 1 - c.utf8Size) else none

/-- The byte slice `&text[s..e]`: `none` on any of the conditions for
which the Rust indexing panics (`s > e`, out of range, or an offset that
is not a UTF-8 character boundary). -/
def sliceB (text : List Char) (s e : Nat) : Option (List Char) :=
  if s ≤ e then (dropB text s).bind (fun suf => takeB suf (e - s)) else none

/-- `AnalyzedText::reconstruct`, from `src/analyzer.rs` lines 186-189:
pairs each token of `tokens()` with the slice
`original[byte_start..byte_end]` of the original text. -/
def AnalyzedText.reconstruct (a : AnalyzedText) : List (Option (List Char) × Token) :=
  a.tokens.map (fun t => (sliceB a.processed.original t.byte_start t.byte_end, t))

/-- Concatenation over optional slices: `none` if any slice paniced. -/
def concatOpt : List (Option (List Char)) → Option (List Char)
  | [] => some []
  | o :: rest => o.bind (fun x => (concatOpt rest).map (fun y => x ++ y))

/-- Concatenating in stream order the original-text slices produced by
`reconstruct`. -/
def reconstructConcat (a : AnalyzedText) : Option (List Char) :=
  concatOpt (a.reconstruct.map (fun p => p.fst))

/-- `Analyzer::pipeline_from`, from `src/analyzer.rs` lines 234-247: look
up `(script, language)`, fall back to `(script, Other)`, then to
`(Other, Other)`, then to the library `DEFAULT_PIPELINE`. -/
def pipeline_from (cfg : AnalyzerConfig) (text : List Char) : Pipeline :=
  let script := detect_script text
  let language := detect_lang text
  (((mapGet cfg.pipeline_map (script, language)).orElse
      (fun _ => mapGet cfg.pipeline_map (script, Lang.Other))).orElse
      (fun _ => mapGet cfg.pipeline_map (Script.Other, Lang.Other))).getD
    defaultPipeline

/-- `Analyzer::analyze`, from `src/analyzer.rs` lines 216-226: resolve
the pipeline, pre-process the text once, and build the classifier from
the registry's stop words. -/
def analyze (cfg : AnalyzerConfig) (text : List Char) : AnalyzedText :=
  let pipeline := pipeline_from cfg text
  { processed := pipeline.pre_processor text,
    pipeline := pipeline,
    stop_words := cfg.stop_words }

/-- Decidable test that byte offset `n` is an in-bounds UTF-8 boundary
of `l`: some prefix of `l` occupies exactly `n` bytes. -/
def isBoundary (l : List Char) (n : Nat) : Bool :=
  (List.range (l.length + 1)).any (fun k => String.utf8Len (l.take k) == n)

/-- The byte-alignment tiling invariant for a token stream over a text:
starting from byte position `s`, each token starts where the previous
one ended, every end offset is a UTF-8 boundary with start ≤ end, and
the last token ends at the total byte length. -/
def tilesB (l : List Char) : Nat → List Token → Bool
  | s, [] => s == String.utf8Len l
  | s, t :: ts =>
    t.byte_start == s && decide (s ≤ t.byte_end) && isBoundary l t.byte_end
      && tilesB l t.byte_end ts

/-- An `AnalyzerConfig` with an empty registry and empty stop-word set,
as built from `AnalyzerConfig::new` with an empty map
(`src/analyzer.rs` lines 147-152). -/
def emptyConfig : AnalyzerConfig :=
  { pipeline_map := [], stop_words := [] }

/-- The resolution chain exactly as the spec words it (section 4.3):
look up `(script, language)`; if absent fall back to `(script, Other)`;
if absent fall back to `(Other, Other)`; if still absent use the
built-in default pipeline. Stated separately from `pipeline_from` so the
code can be proved a refinement of the spec. -/
def resolveSpec (cfg : AnalyzerConfig) (text : List Char) : Pipeline :=
  match mapGet cfg.pipeline_map (detect_script text, detect_lang text) with
  | some p => p
  | none =>
    match mapGet cfg.pipeline_map (detect_script text, Lang.Other) with
    | some p => p
    | none =>
      match mapGet cfg.pipeline_map (Script.Other, Lang.Other) with
      | some p => p
      | none => defaultPipeline

/-- Modelled from the spec: `LowercaseNormalizer` (the `normalizer`
module is missing from the sources; `src/analyzer.rs` lines 117-132 is
its caller): rewrites `word` to its lowercase form, never `kind` or the
offsets. -/
def lowercaseNormalizer : Token → Token :=
  fun t => { t with word := t.word.map Char.toLower }

/-- Modelled from the spec: the composite normalizer
(`impl Normalizer for Vec<Box<dyn Normalizer>>`, missing from the
sources; used by `AnalyzerConfig::default_with_stopwords`): a list of
normalizers is itself a normalizer, applying each element in the list's
order. -/
def compositeNormalizer (ns : List (Token → Token)) : Token → Token :=
  fun t => ns.foldl (fun t n => n t) t

/-- The normalizer stage contract: only `word` may be rewritten; `kind`
and both byte offsets are preserved. -/
def WordOnly (n : Token → Token) : Prop :=
  ∀ t : Token,
    (n t).kind = t.kind ∧ (n t).byte_start = t.byte_start ∧
      (n t).byte_end = t.byte_end

theorem takeB_zero (l : List Char) : takeB l 0 = some [] := by
  cases l <;> rfl

theorem takeB_cons (c : Char) (cs : List Char) (n : Nat) (h : n ≠ 0) :
    takeB (c :: cs) n =
      if c.utf8Size ≤ n then (takeB cs (n - c.utf8Size)).map (fun t => c :: t)
      else none := by
  cases n with
  | zero => exact absurd rfl h
  | succ m => rfl

theorem dropB_zero (l : List Char) : dropB l 0 = some l := by
  cases l <;> rfl

theorem dropB_cons (c : Char) (cs : List Char) (n : Nat) (h : n ≠ 0) :
    dropB (c :: cs) n =
      if c.utf8Size ≤ n then dropB cs (n - c.utf8Size) else none := by
  cases n with
  | zero => exact absurd rfl h
  | succ m => rfl

theorem takeB_of_take : ∀ (k : Nat) (l : List Char), k ≤ l.length →
    takeB l (String.utf8Len (l.take k)) = some (l.take k) := by
  intro k
  induction k with
  | zero => intro l _; simp [takeB_zero]
  | succ k ih =>
    intro l hl
    cases l with
    | nil => simp at hl
    | cons c cs =>
      have hsz := Char.utf8Size_pos c
      rw [List.take_succ_cons, String.utf8Len_cons, takeB_cons _ _ _ (by omega)]
      rw [if_pos (Nat.le_add_left _ _), Nat.add_sub_cancel,
        ih cs (by simpa using hl)]
      rfl

theorem dropB_of_take : ∀ (k : Nat) (l : List Char), k ≤ l.length →
    dropB l (String.utf8Len (l.take k)) = some (l.drop k) := by
  intro k
  induction k with
  | zero => intro l _; simp [dropB_zero]
  | succ k ih =>
    intro l hl
    cases l with
    | nil => simp at hl
    | cons c cs =>
      have hsz := Char.utf8Size_pos c
      rw [List.take_succ_cons, String.utf8Len_cons, dropB_cons _ _ _ (by omega)]
      rw [if_pos (Nat.le_add_left _ _), Nat.add_sub_cancel]
      exact ih cs (by simpa using hl)

theorem utf8Len_take_lt (l : List Char) (k₁ k₂ : Nat) (h : k₁ < k₂)
    (h₂ : k₂ ≤ l.length) :
    String.utf8Len (l.take k₁) < String.utf8Len (l.take k₂) := by
  have hk : k₂ = k₁ + (k₂ - k₁) := by omega
  rw [hk, List.take_add, String.utf8Len_append]
  have hne : (l.drop k₁).take (k₂ - k₁) ≠ [] := by
    have hlen : (l.drop k₁).length = l.length - k₁ := l.length_drop k₁
    intro hnil
    rcases List.take_eq_nil_iff.mp hnil with h0 | h0
    · omega
    · have : l.length - k₁ = 0 := by rw [← hlen, h0]; rfl
      omega
  have hpos : 0 < String.utf8Len ((l.drop k₁).take (k₂ - k₁)) := by
    rcases Nat.eq_zero_or_pos (String.utf8Len ((l.drop k₁).take (k₂ - k₁))) with h0 | h0
    · exact absurd (String.utf8Len_eq_zero.mp h0) hne
    · exact h0
  omega

theorem le_of_utf8Len_take_le (l : List Char) (k₁ k₂ : Nat)
    (h₁ : k₁ ≤ l.length)
    (h : String.utf8Len (l.take k₁) ≤ String.utf8Len (l.take k₂)) : k₁ ≤ k₂ := by
  by_contra hlt
  exact absurd h (Nat.not_le.mpr (utf8Len_take_lt l k₂ k₁ (by omega) h₁))

theorem isBoundary_exists (l : List Char) (n : Nat) (h : isBoundary l n = true) :
    ∃ k, k ≤ l.length ∧ String.utf8Len (l.take k) = n := by
  rcases List.any_eq_true.mp h with ⟨k, hk, hkn⟩
  exact ⟨k, Nat.le_of_lt_succ (List.mem_range.mp hk), beq_iff_eq.mp hkn⟩

theorem sliceB_of_take (l : List Char) (k₁ k₂ : Nat) (h₁₂ : k₁ ≤ k₂)
    (h₂ : k₂ ≤ l.length) :
    sliceB l (String.utf8Len (l.take k₁)) (String.utf8Len (l.take k₂)) =
      some ((l.drop k₁).take (k₂ - k₁)) := by
  have hle : String.utf8Len (l.take k₁) ≤ String.utf8Len (l.take k₂) := by
    rcases Nat.eq_or_lt_of_le h₁₂ with heq | hlt
    · rw [heq]
    · exact Nat.le_of_lt (utf8Len_take_lt l k₁ k₂ hlt h₂)
  have hsum : String.utf8Len (l.take k₂) =
      String.utf8Len (l.take k₁) + String.utf8Len ((l.drop k₁).take (k₂ - k₁)) := by
    conv_lhs => rw [show k₂ = k₁ + (k₂ - k₁) by omega]
    rw [List.take_add, String.utf8Len_append]
  rw [sliceB, if_pos hle, dropB_of_take k₁ l (by omega)]
  have hlen : k₂ - k₁ ≤ (l.drop k₁).length := by
    rw [l.length_drop k₁]; omega
  simp only [Option.some_bind]
  rw [show String.utf8Len (l.take k₂) - String.utf8Len (l.take k₁) =
      String.utf8Len ((l.drop k₁).take (k₂ - k₁)) by omega]
  exact takeB_of_take (k₂ - k₁) (l.drop k₁) hlen

theorem concat_slices_of_tiles : ∀ (ts : List Token) (l : List Char) (k : Nat),
    k ≤ l.length →
    tilesB l (String.utf8Len (l.take k)) ts = true →
    concatOpt (ts.map (fun t => sliceB l t.byte_start t.byte_end)) =
      some (l.drop k) := by
  intro ts
  induction ts with
  | nil =>
    intro l k hk htiles
    have heq : String.utf8Len (l.take k) = String.utf8Len l :=
      beq_iff_eq.mp htiles
    have hkl : k = l.length := by
      rcases Nat.eq_or_lt_of_le hk with h | h
      · exact h
      · have := utf8Len_take_lt l k l.length h le_rfl
        rw [List.take_length] at this
        omega
    rw [hkl, List.drop_length]
    rfl
  | cons t ts ih =>
    intro l k hk htiles
    simp only [tilesB, Bool.and_eq_true] at htiles
    obtain ⟨⟨⟨hstart, hse⟩, hbound⟩, hrest⟩ := htiles
    have hstart' : t.byte_start = String.utf8Len (l.take k) := beq_iff_eq.mp hstart
    have hse' : String.utf8Len (l.take k) ≤ t.byte_end := by
      have := of_decide_eq_true hse
      omega
    rcases isBoundary_exists l t.byte_end hbound with ⟨k₂, hk₂, hk₂e⟩
    have hk12 : k ≤ k₂ := le_of_utf8Len_take_le l k k₂ hk (by rw [hk₂e]; exact hse')
    have hslice : sliceB l t.byte_start t.byte_end =
        some ((l.drop k).take (k₂ - k)) := by
      rw [hstart', ← hk₂e]
      exact sliceB_of_take l k k₂ hk12 hk₂
    have hihres : concatOpt (ts.map (fun t => sliceB l t.byte_start t.byte_end)) =
        some (l.drop k₂) := by
      apply ih l k₂ hk₂
      rw [hk₂e]
      exact hrest
    simp only [List.map_cons, concatOpt, hslice, hihres, Option.some_bind,
      Option.map_some]
    have hdd : (l.drop k).drop (k₂ - k) = l.drop k₂ := by
      rw [List.drop_drop]
      congr 1
      omega
    rw [Option.map_some', ← hdd]
    congr 1
    exact List.take_append_drop (k₂ - k) (l.drop k)

theorem classify_word (sw : List (List Char)) (t : Token) :
    (classify sw t).word = t.word := by
  rcases t with ⟨k, w, s, e⟩
  cases k
  · simp only [classify]
    split <;> rfl
  · rfl
  · rfl

theorem map_word_classify (sw : List (List Char)) :
    ∀ ts : List Token, (ts.map (classify sw)).map Token.word = ts.map Token.word := by
  intro ts
  induction ts with
  | nil => rfl
  | cons t ts ih => simp only [List.map_cons, classify_word, ih]

/-- C1: for every input text and every registry, concatenating in stream
order the original-text slices produced by `AnalyzedText::reconstruct`
on `Analyzer::analyze` yields exactly the input text, whenever the
active stages uphold the byte-alignment invariant: the pre-processor
keeps `original` the untouched input, and the emitted token offsets
tile the original text at UTF-8 boundaries. -/
theorem analyze_reconstruct_roundtrip (cfg : AnalyzerConfig) (text : List Char)
    (horig : ((pipeline_from cfg text).pre_processor text).original = text)
    (htiles : tilesB text 0 (analyze cfg text).tokens = true) :
    reconstructConcat (analyze cfg text) = some text := by
  have horig' : (analyze cfg text).processed.original = text := horig
  have hmain := concat_slices_of_tiles ((analyze cfg text).tokens) text 0
    (Nat.zero_le _) (by rw [List.take_zero]; exact htiles)
  rw [List.drop_zero] at hmain
  simp only [reconstructConcat, AnalyzedText.reconstruct, List.map_map,
    Function.comp, horig']
  exact hmain

/-- Witness for C1 at the concrete input `"ab"` with the empty registry. -/
theorem analyze_reconstruct_roundtrip_witness :
    ((pipeline_from emptyConfig "ab".toList).pre_processor "ab".toList).original
        = "ab".toList ∧
    tilesB "ab".toList 0 (analyze emptyConfig "ab".toList).tokens = true ∧
    reconstructConcat (analyze emptyConfig "ab".toList) = some "ab".toList :=
  ⟨rfl, by decide,
    analyze_reconstruct_roundtrip emptyConfig "ab".toList rfl (by decide)⟩

/-- C2: pipeline resolution is total and agrees with the spec's fallback
chain, and with an empty registry every input resolves to the built-in
default pipeline, so analyzing `"Hello"` yields token text `"Hello"`
unchanged. -/
theorem pipeline_resolution_total (cfg : AnalyzerConfig) :
    (∀ text, pipeline_from cfg text = resolveSpec cfg text) ∧
    (cfg.pipeline_map = [] →
      (∀ text, pipeline_from cfg text = defaultPipeline) ∧
      (analyze cfg "Hello".toList).tokens.map Token.word = ["Hello".toList]) := by
  constructor
  · intro text
    simp only [pipeline_from, resolveSpec]
    cases mapGet cfg.pipeline_map (detect_script text, detect_lang text) <;>
      cases mapGet cfg.pipeline_map (detect_script text, Lang.Other) <;>
        cases mapGet cfg.pipeline_map (Script.Other, Lang.Other) <;> rfl
  · intro h
    have hp : ∀ text, pipeline_from cfg text = defaultPipeline := by
      intro text
      simp only [pipeline_from, h]
      rfl
    refine ⟨hp, ?_⟩
    show ((AnalyzedText.tokens (analyze cfg "Hello".toList)).map Token.word) = _
    simp only [analyze, AnalyzedText.tokens, hp]
    rw [map_word_classify]
    rfl

/-- Witness for C2 at the concrete empty registry. -/
theorem pipeline_resolution_total_witness :
    pipeline_from emptyConfig "x".toList = resolveSpec emptyConfig "x".toList ∧
    pipeline_from emptyConfig "x".toList = defaultPipeline ∧
    (analyze emptyConfig "Hello".toList).tokens.map Token.word
      = ["Hello".toList] :=
  ⟨(pipeline_resolution_total emptyConfig).1 "x".toList,
    ((pipeline_resolution_total emptyConfig).2 rfl).1 "x".toList,
    ((pipeline_resolution_total emptyConfig).2 rfl).2⟩

/-- C3 (evaluation of `src/token.rs` at the divergence): the `TokenKind`
enumeration of `src/token.rs` has exactly the three payload-free values
`Word`, `StopWord`, `Separator`, and `is_separator` returns only the
boolean kind test, so no `Hard`/`Soft` separator kind is observable at
the public token interface and the kind sequence
`[Word, Separator(Hard), StopWord, Separator(Soft), Word,
Separator(Hard)]` asserted by `tests/token_kind.rs` is unrepresentable. -/
theorem separator_kind_unobservable :
    (∀ k : TokenKind,
      k = TokenKind.Word ∨ k = TokenKind.StopWord ∨ k = TokenKind.Separator) ∧
    (∀ t : Token, t.is_separator = (t.kind == TokenKind.Separator)) := by
  constructor
  · intro k
    cases k
    · exact Or.inl rfl
    · exact Or.inr (Or.inl rfl)
    · exact Or.inr (Or.inr rfl)
  · intro t
    rfl

theorem wordOnly_composite : ∀ ns : List (Token → Token),
    (∀ n ∈ ns, WordOnly n) → WordOnly (compositeNormalizer ns) := by
  intro ns
  induction ns with
  | nil => intro _ t; exact ⟨rfl, rfl, rfl⟩
  | cons n ns ih =>
    intro h t
    have hn : WordOnly n := h n (List.mem_cons_self n ns)
    have hns : WordOnly (compositeNormalizer ns) :=
      ih (fun m hm => h m (List.mem_cons_of_mem n hm))
    have hstep : compositeNormalizer (n :: ns) t = compositeNormalizer ns (n t) := rfl
    rw [hstep]
    obtain ⟨h₁, h₂, h₃⟩ := hns (n t)
    obtain ⟨g₁, g₂, g₃⟩ := hn t
    exact ⟨h₁.trans g₁, h₂.trans g₂, h₃.trans g₃⟩

/-- C4: the identity normalizer returns its input token unchanged; a
list of normalizers applied as one normalizer applies each element in
list order; and each (concrete or composite) normalizer rewrites only
`word`, never `kind` or the byte offsets. -/
theorem normalizer_contract :
    (∀ t, identityNormalizer t = t) ∧
    WordOnly identityNormalizer ∧
    WordOnly lowercaseNormalizer ∧
    (∀ ns t, compositeNormalizer ns t = ns.foldl (fun t n => n t) t) ∧
    (∀ ns : List (Token → Token),
      (∀ n ∈ ns, WordOnly n) → WordOnly (compositeNormalizer ns)) := by
  refine ⟨fun t => rfl, fun t => ⟨rfl, rfl, rfl⟩, fun t => ⟨rfl, rfl, rfl⟩,
    fun ns t => rfl, wordOnly_composite⟩

/-- Witness for C4: the composite of the lowercase and identity
normalizers upholds the word-only contract. -/
theorem normalizer_contract_witness :
    WordOnly (compositeNormalizer [lowercaseNormalizer, identityNormalizer]) :=
  normalizer_contract.2.2.2.2 [lowercaseNormalizer, identityNormalizer]
    (by
      intro n hn
      rcases List.mem_cons.mp hn with h | h
      · rw [h]; exact normalizer_contract.2.2.1
      · rw [List.mem_singleton.mp h]; exact normalizer_contract.2.1)

/-- C5: the token classifier rewrites a `Word` token whose text is in
the stop-word set to `StopWord`, keeping `word` and both offsets; a
`Word` token not in the set and a `Separator` token pass through
unmodified. -/
theorem classifier_correct (sw : List (List Char)) (t : Token) :
    (t.kind = TokenKind.Word → t.word ∈ sw →
      classify sw t = { t with kind := TokenKind.StopWord }) ∧
    (t.kind = TokenKind.Word → t.word ∉ sw → classify sw t = t) ∧
    (t.kind = TokenKind.Separator → classify sw t = t) := by
  rcases t with ⟨k, w, s, e⟩
  refine ⟨?_, ?_, ?_⟩ <;> intro hk
  · intro hmem
    subst hk
    simp only [classify]
    rw [if_pos hmem]
  · intro hmem
    subst hk
    simp only [classify]
    rw [if_neg hmem]
  · subst hk
    rfl

/-- Witness for C5 at concrete tokens and the stop-word set `{"the"}`. -/
theorem classifier_correct_witness :
    classify ["the".toList] ⟨TokenKind.Word, "the".toList, 7, 10⟩ =
      ⟨TokenKind.StopWord, "the".toList, 7, 10⟩ ∧
    classify ["the".toList] ⟨TokenKind.Word, "dog".toList, 11, 14⟩ =
      ⟨TokenKind.Word, "dog".toList, 11, 14⟩ ∧
    classify ["the".toList] ⟨TokenKind.Separator, [','], 5, 6⟩ =
      ⟨TokenKind.Separator, [','], 5, 6⟩ :=
  ⟨(classifier_correct ["the".toList] _).1 rfl (by decide),
    (classifier_correct ["the".toList] _).2.1 rfl (by decide),
    (classifier_correct ["the".toList] _).2.2 rfl⟩

/-- C6: analysis is deterministic: for a fixed registry, identical input
texts resolve to the identical pipeline and repeated token streams are
identical token sequences. All stages are pure functions in the
embedding, so both follow from congruence. -/
theorem analysis_deterministic (cfg : AnalyzerConfig) (t₁ t₂ : List Char)
    (h : t₁ = t₂) :
    pipeline_from cfg t₁ = pipeline_from cfg t₂ ∧
    (analyze cfg t₁).tokens = (analyze cfg t₂).tokens ∧
    (analyze cfg t₁).tokens = (analyze cfg t₁).tokens := by
  subst h
  exact ⟨rfl, rfl, rfl⟩

/-- Witness for C6 at the concrete input `"Hello"`. -/
theorem analysis_deterministic_witness :
    pipeline_from emptyConfig "Hello".toList
        = pipeline_from emptyConfig "Hello".toList ∧
    (analyze emptyConfig "Hello".toList).tokens
        = (analyze emptyConfig "Hello".toList).tokens ∧
    (analyze emptyConfig "Hello".toList).tokens
        = (analyze emptyConfig "Hello".toList).tokens :=
  analysis_deterministic emptyConfig "Hello".toList "Hello".toList rfl

/-- C7: pipeline construction starts from the defaults, and each setter
replaces exactly its own stage, leaving the other two unchanged. -/
theorem pipeline_builder_frame :
    (defaultPipeline.pre_processor = identityPreProcessor ∧
      defaultPipeline.tokenizer = unicodeSegmenter ∧
      defaultPipeline.normalizer = identityNormalizer) ∧
    (∀ (p : Pipeline) (f : List Char → ProcessedText),
      (p.set_pre_processor f).pre_processor = f ∧
      (p.set_pre_processor f).tokenizer = p.tokenizer ∧
      (p.set_pre_processor f).normalizer = p.normalizer) ∧
    (∀ (p : Pipeline) (f : ProcessedText → List Token),
      (p.set_tokenizer f).tokenizer = f ∧
      (p.set_tokenizer f).pre_processor = p.pre_processor ∧
      (p.set_tokenizer f).normalizer = p.normalizer) ∧
    (∀ (p : Pipeline) (f : Token → Token),
      (p.set_normalizer f).normalizer = f ∧
      (p.set_normalizer f).pre_processor = p.pre_processor ∧
      (p.set_normalizer f).tokenizer = p.tokenizer) :=
  ⟨⟨rfl, rfl, rfl⟩, fun _ _ => ⟨rfl, rfl, rfl⟩, fun _ _ => ⟨rfl, rfl, rfl⟩,
    fun _ _ => ⟨rfl, rfl, rfl⟩⟩

/-- C8: under the invariant that `byte_start ≤ byte_end` and both are
in-bounds UTF-8 boundary offsets into the original text, the slicing in
`reconstruct` and the subtraction in `byte_len` never reach their
panic branch. -/
theorem slicing_safe (orig : List Char) (t : Token)
    (h₁ : t.byte_start ≤ t.byte_end)
    (h₂ : isBoundary orig t.byte_start = true)
    (h₃ : isBoundary orig t.byte_end = true) :
    (sliceB orig t.byte_start t.byte_end).isSome = true ∧
      t.byte_len.isSome = true := by
  constructor
  · rcases isBoundary_exists orig _ h₂ with ⟨k₁, hk₁, hs⟩
    rcases isBoundary_exists orig _ h₃ with ⟨k₂, hk₂, he⟩
    have hk12 : k₁ ≤ k₂ :=
      le_of_utf8Len_take_le orig k₁ k₂ hk₁ (by rw [hs, he]; exact h₁)
    rw [← hs, ← he, sliceB_of_take orig k₁ k₂ hk12 hk₂]
    rfl
  · simp only [Token.byte_len]
    rw [if_pos h₁]
    rfl

/-- Witness for C8 at the text `"ab"` and the token spanning it. -/
theorem slicing_safe_witness :
    (0 : Nat) ≤ 2 ∧
    isBoundary "ab".toList 0 = true ∧
    isBoundary "ab".toList 2 = true ∧
    ((sliceB "ab".toList 0 2).isSome = true ∧
      (Token.byte_len ⟨TokenKind.Word, "ab".toList, 0, 2⟩).isSome = true) :=
  ⟨by decide, by decide, by decide,
    slicing_safe "ab".toList ⟨TokenKind.Word, "ab".toList, 0, 2⟩
      (by decide) (by decide) (by decide)⟩

/-- C9: `detect_lang` returns `Other` for every input, so resolution
never selects a pipeline under an `English` key: the first two lookup
steps of the fallback chain coincide and the whole resolution collapses
to the chain starting at `(script, Other)`. -/
theorem english_never_selected (cfg : AnalyzerConfig) (text : List Char) :
    detect_lang text = Lang.Other ∧
    pipeline_from cfg text =
      ((mapGet cfg.pipeline_map (detect_script text, Lang.Other)).orElse
        (fun _ => mapGet cfg.pipeline_map (Script.Other, Lang.Other))).getD
        defaultPipeline := by
  refine ⟨rfl, ?_⟩
  simp only [pipeline_from, detect_lang]
  cases mapGet cfg.pipeline_map (detect_script text, Lang.Other) <;> rfl

/-- C10: on the empty input with an empty registry, script detection
yields `Other`, resolution yields the built-in default pipeline, the
token sequence is empty, and reconstruction concatenates to the empty
string. -/
theorem empty_input_default_analysis (cfg : AnalyzerConfig)
    (h : cfg.pipeline_map = []) :
    detect_script [] = Script.Other ∧
    pipeline_from cfg [] = defaultPipeline ∧
    (analyze cfg []).tokens = [] ∧
    reconstructConcat (analyze cfg []) = some [] := by
  have hp : pipeline_from cfg [] = defaultPipeline := by
    simp only [pipeline_from, h]
    rfl
  have htok : (analyze cfg []).tokens = [] := by
    simp only [analyze, AnalyzedText.tokens, hp]
    rfl
  have hrec : reconstructConcat (analyze cfg []) = some [] := by
    rw [reconstructConcat, AnalyzedText.reconstruct, htok]
    rfl
  exact ⟨rfl, hp, htok, hrec⟩

/-- Witness for C10 at the concrete empty registry. -/
theorem empty_input_default_analysis_witness :
    detect_script [] = Script.Other ∧
    pipeline_from emptyConfig [] = defaultPipeline ∧
    (analyze emptyConfig []).tokens = [] ∧
    reconstructConcat (analyze emptyConfig []) = some [] :=
  empty_input_default_analysis emptyConfig rfl
